import Mathlib

/-!
The equation-of-time extension function of solar2

A verification development for `src/solar2.cpp`.  The file has one function,
`calculate_equation_of_time_impl`, which converts its argument with
`PyFloat_AsDouble`, evaluates a fixed trigonometric expression in `double`
arithmetic and wraps the value with `PyFloat_FromDouble`.

The body of the function is embedded once, generically over the arithmetic it
runs on (`Arith`).  Two arithmetics are used:

* `realArith`: every `double` operation read as the exact real operation
  (the idealisation in which the formula-level statements are made);
* `doubleArith`: IEEE-754 binary64 with round-to-nearest-even, infinities and
  NaN, the `cos`/`sin` of the C library being a parameter (`Libm`).
-/

namespace Solar2

/-! ## The arithmetic the function body runs on -/

/-- The operations on `double` that the source uses: conversion of a numeric
literal, the four arithmetic operators, and `cos`/`sin` from `<cmath>`. -/
structure Arith (α : Type) where
  lit : ℚ → α
  add : α → α → α
  sub : α → α → α
  mul : α → α → α
  div : α → α → α
  cos : α → α
  sin : α → α

/-- The decimal literal that initialises `const double e` (line 6). -/
def e_literal : ℚ := 27182818284590452353602874713527 / 10 ^ 31

/-- The decimal literal that initialises `const double PI` (line 7). -/
def PI_literal : ℚ := 3141592653589793238462643383279 / 10 ^ 30

/-- The file-scope constants of the translation unit, passed explicitly. -/
structure Globals (α : Type) where
  e : α
  PI : α

/-- The globals as the source initialises them: each literal converted by the
arithmetic in use. -/
def sourceGlobals {α : Type} (A : Arith α) : Globals α :=
  { e := A.lit e_literal, PI := A.lit PI_literal }

/-- Lines 11 to 15 of `calculate_equation_of_time_impl`: the arithmetic on the
converted argument `gamma`.  Operators associate as in C++ (left to right),
the integer literals `180` and `2` are converted to `double`. -/
def equation_of_time {α : Type} (A : Arith α) (G : Globals α) (gamma : α) : α :=
  let cosgamma := A.cos (A.div (A.mul gamma G.PI) (A.lit 180))
  let singamma := A.sin (A.div (A.mul gamma G.PI) (A.lit 180))
  let cos2gamma := A.cos (A.div (A.mul (A.mul (A.lit 2) gamma) G.PI) (A.lit 180))
  let sin2gamma := A.sin (A.div (A.mul (A.mul (A.lit 2) gamma) G.PI) (A.lit 180))
  A.mul (A.lit (22918 / 10000))
    (A.sub
      (A.sub
        (A.sub
          (A.add (A.lit (75 / 10000)) (A.mul (A.lit (1868 / 10000)) cosgamma))
          (A.mul (A.lit (32077 / 10000)) singamma))
        (A.mul (A.lit (14615 / 10000)) cos2gamma))
      (A.mul (A.lit (4089 / 1000)) sin2gamma))

/-! ## The binding layer -/

/-- The Python objects the function can be handed, as far as
`PyFloat_AsDouble` tells them apart: a `float`, an `int`, a `str`, `None`. -/
inductive PyObject (α : Type) where
  | pyFloat (v : α)
  | pyLong (n : ℤ)
  | pyStr (s : String)
  | pyNone

/-- The exceptions `PyFloat_AsDouble` can leave pending. -/
inductive PyExc where
  | TypeError
  | OverflowError
  deriving DecidableEq, Repr

/-- The interpreter state the function touches: the pending-exception
indicator of the calling thread. -/
structure PyState where
  err : Option PyExc
  deriving DecidableEq, Repr

/-- The C API function `PyFloat_AsDouble`: the value of a `float`; an `int` is
converted (`toDouble`, which fails when the integer is out of range); for any
other object, and on a failed conversion, it returns `-1.0` and sets the
pending exception. -/
def PyFloat_AsDouble {α : Type} (A : Arith α) (toDouble : ℤ → Option α)
    (o : PyObject α) (s : PyState) : α × PyState :=
  match o with
  | .pyFloat v => (v, s)
  | .pyLong n =>
    match toDouble n with
    | some v => (v, s)
    | none => (A.lit (-1), { err := some .OverflowError })
  | .pyStr _ => (A.lit (-1), { err := some .TypeError })
  | .pyNone => (A.lit (-1), { err := some .TypeError })

/-- The C API function `PyFloat_FromDouble`: a new `float` object (allocation
failure is not modelled). -/
def PyFloat_FromDouble {α : Type} (v : α) : Option (PyObject α) :=
  some (.pyFloat v)

/-- The function `calculate_equation_of_time_impl` (lines 9 to 17).  The
result is the returned pointer (`none` for `NULL`) and the interpreter state
on return. -/
def calculate_equation_of_time_impl {α : Type} (A : Arith α) (toDouble : ℤ → Option α)
    (G : Globals α) (o : PyObject α) (s : PyState) : Option (PyObject α) × PyState :=
  let r := PyFloat_AsDouble A toDouble o s
  let gamma := r.1
  let equation_of_time := equation_of_time A G gamma
  (PyFloat_FromDouble equation_of_time, r.2)

/-! ## The real-number reading -/

/-- Exact real arithmetic: literals denote their decimal value, operators
and `cos`/`sin` are the real ones. -/
noncomputable def realArith : Arith ℝ :=
  { lit := fun q => (q : ℝ)
    add := fun x y => x + y
    sub := fun x y => x - y
    mul := fun x y => x * y
    div := fun x y => x / y
    cos := Real.cos
    sin := Real.sin }

/-- The globals in the real-number reading: the constant `PI`, whose `double`
value is the binary64 number nearest to π, denotes π; `e` keeps its literal. -/
noncomputable def realGlobals : Globals ℝ :=
  { e := (e_literal : ℝ), PI := Real.pi }

/-- Every integer converts to a real. -/
def realOfInt (n : ℤ) : Option ℝ := some (n : ℝ)

/-! ## IEEE-754 binary64 -/

/-- A `double`: a finite value (a rational on the binary64 grid; the sign of
zero is not kept), an infinity with its sign, or NaN. -/
inductive Double where
  | finite (q : ℚ)
  | inf (negative : Bool)
  | nan
  deriving DecidableEq

/-- Round to the nearest integer, ties to the even one. -/
def roundHalfEven (x : ℚ) : ℤ :=
  let n := ⌊x⌋
  let f := x - n
  if f < 1 / 2 then n else if 1 / 2 < f then n + 1 else if n % 2 = 0 then n else n + 1

/-- The exponent of the last place of the binary64 numbers around `q`: 52 below
the binary exponent of `q`, and never below that of the subnormals. -/
def quantum (q : ℚ) : ℤ := max (Int.log 2 |q| - 52) (-1074)

/-- Round-to-nearest-even onto the binary64 grid, exponent unbounded above. -/
def roundBinary64 (q : ℚ) : ℚ :=
  if q = 0 then 0 else (roundHalfEven (q / 2 ^ quantum q) : ℚ) * 2 ^ quantum q

/-- The largest finite `double`, `DBL_MAX`. -/
def maxFinite : ℚ := (2 ^ 53 - 1) * 2 ^ 971

namespace Double

/-- The `double` a rational rounds to: overflow gives the infinity of its sign. -/
def ofRat (q : ℚ) : Double :=
  let r := roundBinary64 q
  if 2 ^ 1024 ≤ |r| then inf (decide (q < 0)) else finite r

/-- Whether the value is finite (`isfinite`). -/
def isFinite : Double → Bool
  | finite _ => true
  | _ => false

/-- Whether the value is NaN (`isnan`). -/
def isNaN : Double → Bool
  | nan => true
  | _ => false

/-- Unary minus. -/
def neg : Double → Double
  | finite a => finite (-a)
  | inf s => inf (!s)
  | nan => nan

/-- Addition. -/
def add : Double → Double → Double
  | nan, _ => nan
  | _, nan => nan
  | finite a, finite b => ofRat (a + b)
  | finite _, inf t => inf t
  | inf s, finite _ => inf s
  | inf s, inf t => if s = t then inf s else nan

/-- Subtraction. -/
def sub (x y : Double) : Double := add x (neg y)

/-- Multiplication. -/
def mul : Double → Double → Double
  | nan, _ => nan
  | _, nan => nan
  | finite a, finite b => ofRat (a * b)
  | finite a, inf t => if a = 0 then nan else inf (xor (decide (a < 0)) t)
  | inf s, finite b => if b = 0 then nan else inf (xor s (decide (b < 0)))
  | inf s, inf t => inf (xor s t)

/-- Division. -/
def div : Double → Double → Double
  | nan, _ => nan
  | _, nan => nan
  | finite a, finite b =>
    if b = 0 then (if a = 0 then nan else inf (decide (a < 0))) else ofRat (a / b)
  | finite _, inf _ => finite 0
  | inf s, finite b => inf (xor s (decide (b < 0)))
  | inf _, inf _ => nan

end Double

/-- A finite value of magnitude at most `b`. -/
def Double.absLe (x : Double) (b : ℚ) : Prop :=
  match x with
  | .finite r => |r| ≤ b
  | _ => False

instance Double.absLe_decidable (x : Double) (b : ℚ) : Decidable (x.absLe b) := by
  cases x <;> unfold Double.absLe <;> infer_instance

/-- The `cos` and `sin` of the C library on finite arguments; which `double`
they return there is the library's choice. -/
structure Libm where
  cos : ℚ → ℚ
  sin : ℚ → ℚ

/-- The function `cos` of `<cmath>`: the library's value on a finite argument,
NaN on an infinity or a NaN. -/
def Double.cos (L : Libm) : Double → Double
  | .finite a => Double.ofRat (L.cos a)
  | .inf _ => .nan
  | .nan => .nan

/-- The function `sin` of `<cmath>`: the library's value on a finite argument,
NaN on an infinity or a NaN. -/
def Double.sin (L : Libm) : Double → Double
  | .finite a => Double.ofRat (L.sin a)
  | .inf _ => .nan
  | .nan => .nan

/-- Binary64 arithmetic over the C library `L`. -/
def doubleArith (L : Libm) : Arith Double :=
  { lit := Double.ofRat
    add := Double.add
    sub := Double.sub
    mul := Double.mul
    div := Double.div
    cos := Double.cos L
    sin := Double.sin L }

/-- Conversion of a Python `int` to `double` (`PyLong_AsDouble`): the nearest
`double`, or failure when the integer is out of range. -/
def doubleOfInt (n : ℤ) : Option Double :=
  match Double.ofRat n with
  | .finite r => some (.finite r)
  | _ => none

/-- A small C library to run the model on: a clamped second-order cosine and a
clamped first-order sine. -/
def sampleLibm : Libm :=
  { cos := fun a => max (-1) (1 - a ^ 2 / 2)
    sin := fun a => max (-1) (min 1 a) }

/-- The pi constant as the specification writes it (section 4.1). -/
def PI_spec_literal : ℚ := 314159265358979323846 / 10 ^ 20

/-- The binary64 number `884279719003555 / 2^48`. -/
def PI_double : ℚ := 884279719003555 / 2 ^ 48


/-! ## The real-number reading: the formula -/

/-- The value of lines 11 to 15 over the reals, as a closed formula in `gamma`
and the value of the constant `PI`. -/
theorem equation_of_time_realArith (G : Globals ℝ) (γ : ℝ) :
    equation_of_time realArith G γ
      = 2.2918 * (0.0075 + 0.1868 * Real.cos (γ * G.PI / 180)
          - 3.2077 * Real.sin (γ * G.PI / 180)
          - 1.4615 * Real.cos (2 * γ * G.PI / 180)
          - 4.089 * Real.sin (2 * γ * G.PI / 180)) := by
  simp only [equation_of_time, realArith]
  push_cast
  norm_num

/-- The same with `PI` read as π. -/
theorem equation_of_time_real (γ : ℝ) :
    equation_of_time realArith realGlobals γ
      = 2.2918 * (0.0075 + 0.1868 * Real.cos (γ * Real.pi / 180)
          - 3.2077 * Real.sin (γ * Real.pi / 180)
          - 1.4615 * Real.cos (2 * γ * Real.pi / 180)
          - 4.089 * Real.sin (2 * γ * Real.pi / 180)) :=
  equation_of_time_realArith realGlobals γ

/-- A harmonic `a cos x + b sin x` has amplitude at most `sqrt (a^2 + b^2)`. -/
theorem abs_harmonic_le (a b x : ℝ) :
    |a * Real.cos x + b * Real.sin x| ≤ Real.sqrt (a ^ 2 + b ^ 2) := by
  apply Real.abs_le_sqrt
  nlinarith [Real.sin_sq_add_cos_sq x, sq_nonneg (a * Real.sin x - b * Real.cos x)]

/-- The sum of the amplitudes, scaled, is below 17.34. -/
theorem amplitude_lt :
    (2.2918 : ℝ) * (0.0075 + Real.sqrt (0.1868 ^ 2 + 3.2077 ^ 2)
      + Real.sqrt (1.4615 ^ 2 + 4.089 ^ 2)) < 17.34 := by
  have h1 : Real.sqrt (0.1868 ^ 2 + 3.2077 ^ 2) < 3.2132 := by
    rw [Real.sqrt_lt' (by norm_num)]; norm_num
  have h2 : Real.sqrt (1.4615 ^ 2 + 4.089 ^ 2) < 4.3424 := by
    rw [Real.sqrt_lt' (by norm_num)]; norm_num
  linarith

/-- The `double` value of the constant `PI` is within half a unit in the last
place of π: the constant is π rounded to binary64, which is what the
real-number reading of `PI` rests on. -/
theorem PI_double_nearest_pi : |Real.pi - (PI_double : ℝ)| < 2 ^ (-52 : ℤ) := by
  have h1 := Real.pi_gt_d20
  have h2 := Real.pi_lt_d20
  rw [PI_double, abs_lt]
  push_cast
  constructor
  · have : (2 : ℝ) ^ (-52 : ℤ) = 1 / 4503599627370496 := by norm_num
    rw [this]
    norm_num at h1 ⊢
    linarith
  · have : (2 : ℝ) ^ (-52 : ℤ) = 1 / 4503599627370496 := by norm_num
    rw [this]
    norm_num at h2 ⊢
    linarith

/-! ## Rounding onto the binary64 grid -/

theorem roundHalfEven_eq (x : ℚ) (m : ℤ) (h : |x - m| < 1 / 2) : roundHalfEven x = m := by
  have h1 := abs_lt.mp h
  unfold roundHalfEven
  simp only
  by_cases hm : (m : ℚ) ≤ x
  · have hf : ⌊x⌋ = m := by
      rw [Int.floor_eq_iff]; constructor
      · exact hm
      · linarith [h1.2]
    rw [hf, if_pos (by linarith [h1.2])]
  · have hf : ⌊x⌋ = m - 1 := by
      rw [Int.floor_eq_iff]; push_cast; constructor
      · linarith [h1.1]
      · linarith [not_le.mp hm]
    rw [hf]
    push_cast
    rw [if_neg (by linarith [h1.1]), if_pos (by linarith [h1.1])]
    ring

theorem quantum_eq (q : ℚ) (k : ℤ) (h1 : 2 ^ k ≤ |q|) (h2 : |q| < 2 ^ (k + 1)) :
    quantum q = max (k - 52) (-1074) := by
  have hpos : 0 < |q| := lt_of_lt_of_le (by positivity) h1
  have hlog : Int.log 2 |q| = k := by
    apply le_antisymm
    · have := (Int.lt_zpow_iff_log_lt (b := 2) (by norm_num) hpos).mp (by exact_mod_cast h2)
      omega
    · exact (Int.zpow_le_iff_le_log (b := 2) (by norm_num) hpos).mp (by exact_mod_cast h1)
  unfold quantum
  rw [hlog]

/-- Evaluation of the rounding from a certificate: the binary exponent `k` of
`q` and an integer `m` within half a unit of `q` scaled to its last place. -/
theorem roundBinary64_eq (q : ℚ) (k e m : ℤ) (h1 : 2 ^ k ≤ |q|) (h2 : |q| < 2 ^ (k + 1))
    (he : e = max (k - 52) (-1074)) (hm : |q / 2 ^ e - m| < 1 / 2) :
    roundBinary64 q = m * 2 ^ e := by
  have hq : q ≠ 0 := by
    intro h0
    rw [h0, abs_zero] at h1
    exact absurd h1 (not_le.mpr (by positivity))
  unfold roundBinary64
  rw [if_neg hq, quantum_eq q k h1 h2, ← he, roundHalfEven_eq _ m hm]

theorem ofRat_PI_literal : Double.ofRat PI_literal = .finite PI_double := by
  have h : roundBinary64 PI_literal = PI_double := by
    rw [roundBinary64_eq PI_literal 1 (-51) 7074237752028440
      (by rw [PI_literal]; norm_num [abs_of_pos])
      (by rw [PI_literal]; norm_num [abs_of_pos]) (by norm_num)
      (by rw [PI_literal]; norm_num [abs_lt])]
    rw [PI_double]; norm_num
  unfold Double.ofRat
  simp only [h]
  rw [if_neg]
  rw [PI_double]; norm_num [abs_of_pos]

theorem roundHalfEven_le (x : ℚ) (N : ℤ) (h : x ≤ N) : roundHalfEven x ≤ N := by
  have hn : ⌊x⌋ ≤ N := by
    have := Int.floor_le x
    exact_mod_cast this.trans h
  unfold roundHalfEven
  simp only
  have key : ¬ (x - ⌊x⌋ < 1 / 2) → ⌊x⌋ + 1 ≤ N := by
    intro hf
    have h3 : ((⌊x⌋ : ℤ) : ℚ) < N := by linarith [not_lt.mp hf]
    have h4 : ⌊x⌋ < N := by exact_mod_cast h3
    omega
  split_ifs with h1 h2 h3
  · exact hn
  · exact key h1
  · exact hn
  · exact key h1

theorem le_roundHalfEven (x : ℚ) (N : ℤ) (h : (N : ℚ) ≤ x) : N ≤ roundHalfEven x := by
  have hn : N ≤ ⌊x⌋ := Int.le_floor.mpr h
  unfold roundHalfEven
  simp only
  split_ifs <;> omega

theorem abs_roundHalfEven_le (x : ℚ) (N : ℤ) (h : |x| ≤ N) : |(roundHalfEven x : ℚ)| ≤ N := by
  have h' := abs_le.mp h
  rw [abs_le]
  constructor
  · have := le_roundHalfEven x (-N) (by push_cast; exact h'.1)
    exact_mod_cast this
  · exact_mod_cast roundHalfEven_le x N h'.2

theorem quantum_le (q : ℚ) (M : ℕ) (e0 : ℤ) (hq : q ≠ 0) (hM : M < 2 ^ 53) (he0 : -1074 ≤ e0)
    (h : |q| ≤ M * 2 ^ e0) : quantum q ≤ e0 := by
  have hpos : 0 < |q| := abs_pos.mpr hq
  have hlt : |q| < ((2 : ℕ) : ℚ) ^ (53 + e0) := by
    have h2 : (0 : ℚ) < 2 ^ e0 := by positivity
    have hM' : (M : ℚ) < 2 ^ 53 := by exact_mod_cast hM
    calc |q| ≤ M * 2 ^ e0 := h
      _ < 2 ^ 53 * 2 ^ e0 := by exact mul_lt_mul_of_pos_right hM' h2
      _ = ((2 : ℕ) : ℚ) ^ (53 + e0) := by
          rw [zpow_add₀ (by norm_num)]; norm_num
  have hlog := (Int.lt_zpow_iff_log_lt (b := 2) (by norm_num) hpos).mp hlt
  unfold quantum
  exact max_le (by omega) he0

theorem roundBinary64_abs_le (q : ℚ) (M : ℕ) (e0 : ℤ) (hM : M < 2 ^ 53) (he0 : -1074 ≤ e0)
    (h : |q| ≤ M * 2 ^ e0) : |roundBinary64 q| ≤ M * 2 ^ e0 := by
  unfold roundBinary64
  by_cases hq : q = 0
  · rw [if_pos hq, abs_zero]; positivity
  · rw [if_neg hq]
    have he := quantum_le q M e0 hq hM he0 h
    obtain ⟨d, hd⟩ := Int.le.dest he
    have hpe : (0 : ℚ) < 2 ^ quantum q := by positivity
    have h2 : (2 : ℚ) ^ e0 = 2 ^ quantum q * 2 ^ d := by
      rw [← hd, zpow_add₀ (by norm_num), zpow_natCast]
    have hx : |q / 2 ^ quantum q| ≤ ((M * 2 ^ d : ℤ) : ℚ) := by
      rw [abs_div, abs_of_pos hpe, div_le_iff₀ hpe]
      push_cast
      calc |q| ≤ M * 2 ^ e0 := h
        _ = M * 2 ^ d * 2 ^ quantum q := by rw [h2]; ring
    have hr := abs_roundHalfEven_le _ _ hx
    rw [abs_mul, abs_of_pos hpe]
    calc |(roundHalfEven (q / 2 ^ quantum q) : ℚ)| * 2 ^ quantum q
        ≤ ((M * 2 ^ d : ℤ) : ℚ) * 2 ^ quantum q := mul_le_mul_of_nonneg_right hr hpe.le
      _ = M * 2 ^ e0 := by rw [h2]; push_cast; ring

theorem ofRat_absLe (q : ℚ) (M : ℕ) (e0 : ℤ) (hM : M < 2 ^ 53) (he0 : -1074 ≤ e0)
    (he1 : e0 ≤ 971) (h : |q| ≤ M * 2 ^ e0) : (Double.ofRat q).absLe (M * 2 ^ e0) := by
  have hr := roundBinary64_abs_le q M e0 hM he0 h
  have hlt : |roundBinary64 q| < 2 ^ 1024 := by
    have hM' : (M : ℚ) < 2 ^ 53 := by exact_mod_cast hM
    have h971 : (2 : ℚ) ^ e0 ≤ 2 ^ (971 : ℤ) := zpow_le_zpow_right₀ (by norm_num) he1
    have h2 : (0 : ℚ) < 2 ^ e0 := by positivity
    calc |roundBinary64 q| ≤ M * 2 ^ e0 := hr
      _ < 2 ^ 53 * 2 ^ e0 := mul_lt_mul_of_pos_right hM' h2
      _ ≤ 2 ^ 53 * 2 ^ (971 : ℤ) := by apply mul_le_mul_of_nonneg_left h971; positivity
      _ = 2 ^ 1024 := by norm_num
  unfold Double.ofRat
  simp only
  rw [if_neg (not_le.mpr hlt)]
  exact hr

/-! ## Special values and concrete roundings -/

theorem Double.mul_nan_right (x : Double) : Double.mul x .nan = .nan := by
  cases x <;> rfl

theorem Double.add_nan_right (x : Double) : Double.add x .nan = .nan := by
  cases x <;> rfl

theorem Double.sub_nan_right (x : Double) : Double.sub x .nan = .nan := by
  cases x <;> rfl

theorem Double.sub_nan_left (y : Double) : Double.sub .nan y = .nan := by
  cases y <;> rfl

/-- Once the first harmonic is NaN, so is the value of the expression. -/
theorem equation_of_time_nan_of_cos (L : Libm) (G : Globals Double) (gamma : Double)
    (h : Double.cos L (Double.div (Double.mul gamma G.PI) (Double.ofRat 180)) = .nan) :
    equation_of_time (doubleArith L) G gamma = .nan := by
  simp only [equation_of_time, doubleArith, h, Double.mul_nan_right, Double.add_nan_right,
    Double.sub_nan_left]

theorem ofRat_180 : Double.ofRat 180 = .finite 180 := by
  have h : roundBinary64 180 = 180 := by
    rw [roundBinary64_eq 180 7 (-45) (180 * 2 ^ 45)
      (by norm_num [abs_of_pos]) (by norm_num [abs_of_pos]) (by norm_num)
      (by norm_num)]
    norm_num
  unfold Double.ofRat
  simp only [h]
  rw [if_neg]
  norm_num [abs_of_pos]

theorem ofRat_PI_spec_literal : Double.ofRat PI_spec_literal = .finite PI_double := by
  have h : roundBinary64 PI_spec_literal = PI_double := by
    rw [roundBinary64_eq PI_spec_literal 1 (-51) 7074237752028440
      (by rw [PI_spec_literal]; norm_num [abs_of_pos])
      (by rw [PI_spec_literal]; norm_num [abs_of_pos]) (by norm_num)
      (by rw [PI_spec_literal]; norm_num [abs_lt])]
    rw [PI_double]; norm_num
  unfold Double.ofRat
  simp only [h]
  rw [if_neg]
  rw [PI_double]; norm_num [abs_of_pos]

theorem mul_huge_PI : Double.mul (.finite (2 ^ 1023)) (.finite PI_double) = .inf false := by
  have h : roundBinary64 (2 ^ 1023 * PI_double) = 884279719003555 * 2 ^ 975 := by
    rw [roundBinary64_eq (2 ^ 1023 * PI_double) 1024 972 7074237752028440
      (by rw [PI_double]; norm_num [abs_of_pos])
      (by rw [PI_double]; norm_num [abs_of_pos]) (by norm_num)
      (by rw [PI_double]; norm_num)]
    norm_num
  show Double.ofRat (2 ^ 1023 * PI_double) = .inf false
  unfold Double.ofRat
  simp only [h]
  rw [if_pos (by norm_num [abs_of_pos])]
  rw [PI_double]; norm_num

theorem Double.mul_nan_left (y : Double) : Double.mul .nan y = .nan := by
  cases y <;> rfl

theorem Double.div_nan_left (y : Double) : Double.div .nan y = .nan := by
  cases y <;> rfl

theorem sampleLibm_cos_le (a : ℚ) : |sampleLibm.cos a| ≤ 1 := by
  show |max (-1) (1 - a ^ 2 / 2)| ≤ 1
  rw [abs_le]
  exact ⟨le_max_left _ _, max_le (by norm_num) (by nlinarith [sq_nonneg a])⟩

theorem sampleLibm_sin_le (a : ℚ) : |sampleLibm.sin a| ≤ 1 := by
  show |max (-1) (min 1 a)| ≤ 1
  rw [abs_le]
  exact ⟨le_max_left _ _, max_le (by norm_num) (min_le_left _ _)⟩

/-! ## Finite values stay finite below the overflow threshold -/

theorem Double.absLe_mono (x : Double) (b c : ℚ) (h : x.absLe b) (hbc : b ≤ c) : x.absLe c := by
  cases x with
  | finite r => exact le_trans h hbc
  | inf s => exact h
  | nan => exact h

theorem Double.absLe_isFinite (x : Double) (b : ℚ) (h : x.absLe b) : x.isFinite = true := by
  cases x with
  | finite r => rfl
  | inf s => exact h.elim
  | nan => exact h.elim

/-- A rational within a bound that lies on the binary64 grid rounds to a finite
`double` within the same bound. -/
theorem ofRat_absLe_grid (q c : ℚ) (M : ℕ) (e0 : ℤ) (hc : c = M * 2 ^ e0) (hM : M < 2 ^ 53)
    (he0 : -1074 ≤ e0) (he1 : e0 ≤ 971) (h : |q| ≤ c) : (Double.ofRat q).absLe c := by
  subst hc
  exact ofRat_absLe q M e0 hM he0 he1 h

theorem Double.mul_absLe (x y : Double) (bx bY c : ℚ) (M : ℕ) (e0 : ℤ) (hx : x.absLe bx)
    (hy : y.absLe bY) (h : bx * bY ≤ c) (hc : c = M * 2 ^ e0) (hM : M < 2 ^ 53)
    (he0 : -1074 ≤ e0) (he1 : e0 ≤ 971) : (Double.mul x y).absLe c := by
  cases x with
  | inf s => exact hx.elim
  | nan => exact hx.elim
  | finite a =>
    cases y with
    | inf s => exact hy.elim
    | nan => exact hy.elim
    | finite b =>
      have ha : |a| ≤ bx := hx
      have hb : |b| ≤ bY := hy
      apply ofRat_absLe_grid (a * b) c M e0 hc hM he0 he1
      rw [abs_mul]
      exact le_trans (mul_le_mul ha hb (abs_nonneg b) (le_trans (abs_nonneg a) ha)) h

theorem Double.add_absLe (x y : Double) (bx bY c : ℚ) (M : ℕ) (e0 : ℤ) (hx : x.absLe bx)
    (hy : y.absLe bY) (h : bx + bY ≤ c) (hc : c = M * 2 ^ e0) (hM : M < 2 ^ 53)
    (he0 : -1074 ≤ e0) (he1 : e0 ≤ 971) : (Double.add x y).absLe c := by
  cases x with
  | inf s => exact hx.elim
  | nan => exact hx.elim
  | finite a =>
    cases y with
    | inf s => exact hy.elim
    | nan => exact hy.elim
    | finite b =>
      have ha : |a| ≤ bx := hx
      have hb : |b| ≤ bY := hy
      apply ofRat_absLe_grid (a + b) c M e0 hc hM he0 he1
      exact le_trans (abs_add a b) (by linarith)

theorem Double.sub_absLe (x y : Double) (bx bY c : ℚ) (M : ℕ) (e0 : ℤ) (hx : x.absLe bx)
    (hy : y.absLe bY) (h : bx + bY ≤ c) (hc : c = M * 2 ^ e0) (hM : M < 2 ^ 53)
    (he0 : -1074 ≤ e0) (he1 : e0 ≤ 971) : (Double.sub x y).absLe c := by
  cases x with
  | inf s => exact hx.elim
  | nan => exact hx.elim
  | finite a =>
    cases y with
    | inf s => exact hy.elim
    | nan => exact hy.elim
    | finite b =>
      have ha : |a| ≤ bx := hx
      have hb : |b| ≤ bY := hy
      apply ofRat_absLe_grid (a + -b) c M e0 hc hM he0 he1
      have := abs_add a (-b)
      rw [abs_neg] at this
      linarith

theorem Double.div_180_absLe (x : Double) (c : ℚ) (M : ℕ) (e0 : ℤ) (hx : x.absLe c)
    (hc : c = M * 2 ^ e0) (hM : M < 2 ^ 53) (he0 : -1074 ≤ e0) (he1 : e0 ≤ 971) :
    (Double.div x (.finite 180)).absLe c := by
  cases x with
  | inf s => exact hx.elim
  | nan => exact hx.elim
  | finite a =>
    have ha : |a| ≤ c := hx
    have hd : Double.div (.finite a) (.finite 180) = Double.ofRat (a / 180) := by
      simp [Double.div]
    rw [hd]
    apply ofRat_absLe_grid (a / 180) c M e0 hc hM he0 he1
    rw [abs_div]
    have h180 : |(180 : ℚ)| = 180 := abs_of_pos (by norm_num)
    rw [h180]
    have := abs_nonneg a
    rw [div_le_iff₀ (by norm_num)]
    linarith

theorem Double.cos_absLe (L : Libm) (hL : ∀ a, |L.cos a| ≤ 1) (x : Double) (b : ℚ)
    (hx : x.absLe b) : (Double.cos L x).absLe 1 := by
  cases x with
  | inf s => exact hx.elim
  | nan => exact hx.elim
  | finite a =>
    exact ofRat_absLe_grid (L.cos a) 1 1 0 (by norm_num) (by norm_num) (by norm_num)
      (by norm_num) (hL a)

theorem Double.sin_absLe (L : Libm) (hL : ∀ a, |L.sin a| ≤ 1) (x : Double) (b : ℚ)
    (hx : x.absLe b) : (Double.sin L x).absLe 1 := by
  cases x with
  | inf s => exact hx.elim
  | nan => exact hx.elim
  | finite a =>
    exact ofRat_absLe_grid (L.sin a) 1 1 0 (by norm_num) (by norm_num) (by norm_num)
      (by norm_num) (hL a)

/-- The arithmetic of lines 11 to 15 on a finite `gamma` of magnitude at most
`2^1021`, over a C library whose `cos` and `sin` stay within `[-1, 1]`: no
operation overflows and the value has magnitude at most 128. -/
theorem equation_of_time_absLe (L : Libm) (hcos : ∀ a, |L.cos a| ≤ 1)
    (hsin : ∀ a, |L.sin a| ≤ 1) (g : ℚ) (hg : |g| ≤ 2 ^ 1021) :
    (equation_of_time (doubleArith L) (sourceGlobals (doubleArith L)) (.finite g)).absLe 128 := by
  have hgam : (Double.finite g).absLe (2 ^ 1021) := hg
  have hpi : (Double.finite PI_double).absLe 4 := by
    show |PI_double| ≤ 4
    rw [PI_double]; norm_num [abs_le]
  have hpi' : (Double.finite PI_double).absLe PI_double := by
    show |PI_double| ≤ PI_double
    rw [PI_double]; norm_num [abs_le]
  have h1 : (Double.mul (.finite g) (.finite PI_double)).absLe (2 ^ 1023) :=
    Double.mul_absLe _ _ _ _ _ (2 ^ 52) 971 hgam hpi (by norm_num) (by norm_num)
      (by norm_num) (by norm_num) (by norm_num)
  have h1' := Double.div_180_absLe _ (2 ^ 1023) (2 ^ 52) 971 h1 (by norm_num) (by norm_num)
    (by norm_num) (by norm_num)
  have h2 : (Double.mul (Double.ofRat 2) (.finite g)).absLe (2 ^ 1022) :=
    Double.mul_absLe _ _ 2 _ _ (2 ^ 51) 971
      (ofRat_absLe_grid 2 2 1 1 (by norm_num) (by norm_num) (by norm_num) (by norm_num)
        (by norm_num [abs_le]))
      hgam (by norm_num) (by norm_num) (by norm_num) (by norm_num) (by norm_num)
  have h3 : (Double.mul (Double.mul (Double.ofRat 2) (.finite g)) (.finite PI_double)).absLe
      (7074237752028440 * 2 ^ 971) :=
    Double.mul_absLe _ _ _ _ _ 7074237752028440 971 h2 hpi' (by rw [PI_double]; norm_num)
      (by norm_num) (by norm_num) (by norm_num) (by norm_num)
  have h3' := Double.div_180_absLe _ _ 7074237752028440 971 h3 (by norm_num) (by norm_num)
    (by norm_num) (by norm_num)
  have hc1 := Double.cos_absLe L hcos _ _ h1'
  have hs1 := Double.sin_absLe L hsin _ _ h1'
  have hc2 := Double.cos_absLe L hcos _ _ h3'
  have hs2 := Double.sin_absLe L hsin _ _ h3'
  have hlit : ∀ (q c : ℚ) (k : ℕ), c = 2 ^ k → k ≤ 10 → |q| ≤ c → (Double.ofRat q).absLe c := by
    intro q c k hc hk hq
    apply ofRat_absLe_grid q c (2 ^ k) 0 (by rw [hc]; norm_num) _ (by norm_num) (by norm_num) hq
    exact Nat.pow_lt_pow_right (by norm_num) (by omega)
  have t1 := Double.mul_absLe _ _ 1 1 1 1 0 (hlit (1868 / 10000) 1 0 (by norm_num)
    (by norm_num) (by norm_num [abs_le])) hc1 (by norm_num) (by norm_num) (by norm_num)
    (by norm_num) (by norm_num)
  have a1 := Double.add_absLe _ _ 1 1 2 2 0 (hlit (75 / 10000) 1 0 (by norm_num)
    (by norm_num) (by norm_num [abs_le])) t1 (by norm_num) (by norm_num) (by norm_num)
    (by norm_num) (by norm_num)
  have t2 := Double.mul_absLe _ _ 4 1 4 4 0 (hlit (32077 / 10000) 4 2 (by norm_num)
    (by norm_num) (by norm_num [abs_le])) hs1 (by norm_num) (by norm_num) (by norm_num)
    (by norm_num) (by norm_num)
  have a2 := Double.sub_absLe _ _ 2 4 8 8 0 a1 t2 (by norm_num) (by norm_num) (by norm_num)
    (by norm_num) (by norm_num)
  have t3 := Double.mul_absLe _ _ 2 1 2 2 0 (hlit (14615 / 10000) 2 1 (by norm_num)
    (by norm_num) (by norm_num [abs_le])) hc2 (by norm_num) (by norm_num) (by norm_num)
    (by norm_num) (by norm_num)
  have a3 := Double.sub_absLe _ _ 8 2 16 16 0 a2 t3 (by norm_num) (by norm_num) (by norm_num)
    (by norm_num) (by norm_num)
  have t4 := Double.mul_absLe _ _ 8 1 8 8 0 (hlit (4089 / 1000) 8 3 (by norm_num)
    (by norm_num) (by norm_num [abs_le])) hs2 (by norm_num) (by norm_num) (by norm_num)
    (by norm_num) (by norm_num)
  have a4 := Double.sub_absLe _ _ 16 8 32 32 0 a3 t4 (by norm_num) (by norm_num) (by norm_num)
    (by norm_num) (by norm_num)
  have r := Double.mul_absLe _ _ 4 32 128 128 0 (hlit (22918 / 10000) 4 2 (by norm_num)
    (by norm_num) (by norm_num [abs_le])) a4 (by norm_num) (by norm_num) (by norm_num)
    (by norm_num) (by norm_num)
  simp only [equation_of_time, doubleArith, sourceGlobals, ofRat_PI_literal, ofRat_180]
  exact r

/-! ## The claims -/

/-- C1: over the reals, for every `gamma` (degrees) handed over as a `float`,
`calculate_equation_of_time_impl` returns the `float`
`2.2918 * (0.0075 + 0.1868 cos(γπ/180) - 3.2077 sin(γπ/180)
- 1.4615 cos(2γπ/180) - 4.089 sin(2γπ/180))`, with these coefficients and
signs and the second harmonic at twice the converted angle, and leaves the
interpreter state as it found it; the same formula in the constant `PI` holds
whatever value the constant has. -/
theorem impl_computes_formula (G : Globals ℝ) (γ : ℝ) (s : PyState) :
    calculate_equation_of_time_impl realArith realOfInt realGlobals (.pyFloat γ) s
        = (some (.pyFloat
            (2.2918 * (0.0075 + 0.1868 * Real.cos (γ * Real.pi / 180)
              - 3.2077 * Real.sin (γ * Real.pi / 180)
              - 1.4615 * Real.cos (2 * γ * Real.pi / 180)
              - 4.089 * Real.sin (2 * γ * Real.pi / 180)))), s)
      ∧ calculate_equation_of_time_impl realArith realOfInt G (.pyFloat γ) s
        = (some (.pyFloat
            (2.2918 * (0.0075 + 0.1868 * Real.cos (γ * G.PI / 180)
              - 3.2077 * Real.sin (γ * G.PI / 180)
              - 1.4615 * Real.cos (2 * γ * G.PI / 180)
              - 4.089 * Real.sin (2 * γ * G.PI / 180)))), s) := by
  constructor
  · simp only [calculate_equation_of_time_impl, PyFloat_AsDouble, PyFloat_FromDouble,
      equation_of_time_real]
  · simp only [calculate_equation_of_time_impl, PyFloat_AsDouble, PyFloat_FromDouble,
      equation_of_time_realArith]

/-- C2: on the string `"abc"`, whatever the arithmetic, the globals and the
interpreter state, `calculate_equation_of_time_impl` does not return `NULL`:
it returns the `float` obtained by running the formula on the error value
`-1.0` of `PyFloat_AsDouble`, with the `TypeError` left pending. -/
theorem impl_str_returns_float (α : Type) (A : Arith α) (toDouble : ℤ → Option α)
    (G : Globals α) (s : PyState) :
    calculate_equation_of_time_impl A toDouble G (.pyStr "abc") s
      = (some (.pyFloat (equation_of_time A G (A.lit (-1)))), { err := some .TypeError }) := by
  rfl

/-- C3, as stated, fails: the value at 0 is not both
`2.2918 * (0.0075 + 0.1868 - 1.4615)` and 1.4050 to four decimal places. -/
theorem eot_zero_not_1_4050 :
    ¬ (equation_of_time realArith realGlobals 0 = 2.2918 * (0.0075 + 0.1868 - 1.4615)
        ∧ round (equation_of_time realArith realGlobals 0 * 10 ^ 4) = 14050) := by
  rintro ⟨h, hr⟩
  rw [h, round_eq, Int.floor_eq_iff] at hr
  norm_num at hr

/-- C3, amended: the value at 0 is `2.2918 * (0.0075 + 0.1868 - 1.4615)`, which
is -2.90416896, that is -2.9042 to four decimal places. -/
theorem eot_zero_value :
    equation_of_time realArith realGlobals 0 = 2.2918 * (0.0075 + 0.1868 - 1.4615)
      ∧ equation_of_time realArith realGlobals 0 = -2.90416896
      ∧ round (equation_of_time realArith realGlobals 0 * 10 ^ 4) = -29042 := by
  have h : equation_of_time realArith realGlobals 0 = -2.90416896 := by
    rw [equation_of_time_real]; norm_num
  refine ⟨by rw [h]; norm_num, h, ?_⟩
  rw [h, round_eq, Int.floor_eq_iff]
  norm_num

/-- C4, as stated, fails: the value at 180 is not both
`2.2918 * (0.0075 - 0.1868 - 1.4615)` and -3.6396 to four decimal places. -/
theorem eot_180_not_minus_3_6396 :
    ¬ (equation_of_time realArith realGlobals 180 = 2.2918 * (0.0075 - 0.1868 - 1.4615)
        ∧ round (equation_of_time realArith realGlobals 180 * 10 ^ 4) = -36396) := by
  rintro ⟨h, hr⟩
  rw [h, round_eq, Int.floor_eq_iff] at hr
  norm_num at hr

/-- C4, amended: the value at 180 is `2.2918 * (0.0075 - 0.1868 - 1.4615)`
(the cosines being -1 and 1, the sines 0), which is -3.76038544, that is
-3.7604 to four decimal places. -/
theorem eot_180_value :
    equation_of_time realArith realGlobals 180 = 2.2918 * (0.0075 - 0.1868 - 1.4615)
      ∧ equation_of_time realArith realGlobals 180 = -3.76038544
      ∧ round (equation_of_time realArith realGlobals 180 * 10 ^ 4) = -37604 := by
  have h : equation_of_time realArith realGlobals 180 = -3.76038544 := by
    rw [equation_of_time_real]
    have h1 : (180 : ℝ) * Real.pi / 180 = Real.pi := by ring
    have h2 : (2 : ℝ) * 180 * Real.pi / 180 = 2 * Real.pi := by ring
    rw [h1, h2]
    norm_num
  refine ⟨by rw [h]; norm_num, h, ?_⟩
  rw [h, round_eq, Int.floor_eq_iff]
  norm_num

/-- C5: over the reals the value has period 360 in `gamma`: it is the same at
`gamma + 360` and at `gamma + 360 k` for every integer `k`. -/
theorem eot_periodic (γ : ℝ) (k : ℤ) :
    equation_of_time realArith realGlobals (γ + 360)
        = equation_of_time realArith realGlobals γ
      ∧ equation_of_time realArith realGlobals (γ + 360 * k)
        = equation_of_time realArith realGlobals γ := by
  have key : ∀ j : ℤ, equation_of_time realArith realGlobals (γ + 360 * j)
      = equation_of_time realArith realGlobals γ := by
    intro j
    rw [equation_of_time_real, equation_of_time_real]
    have h1 : (γ + 360 * j) * Real.pi / 180 = γ * Real.pi / 180 + j * (2 * Real.pi) := by ring
    have h2 : 2 * (γ + 360 * j) * Real.pi / 180
        = 2 * γ * Real.pi / 180 + (2 * j : ℤ) * (2 * Real.pi) := by push_cast; ring
    rw [h1, h2, Real.cos_add_int_mul_two_pi, Real.sin_add_int_mul_two_pi,
      Real.cos_add_int_mul_two_pi, Real.sin_add_int_mul_two_pi]
  refine ⟨?_, key k⟩
  have := key 1
  simpa using this

/-- C6, as stated, fails: on the finite `double` `2^1023` the product
`gamma * PI` overflows to infinity, its cosine is NaN, and the function
returns the `float` NaN. -/
theorem impl_huge_gamma_nan :
    calculate_equation_of_time_impl (doubleArith sampleLibm) doubleOfInt
        (sourceGlobals (doubleArith sampleLibm)) (.pyFloat (.finite (2 ^ 1023))) { err := none }
      = (some (.pyFloat .nan), { err := none }) := by
  have h : equation_of_time (doubleArith sampleLibm) (sourceGlobals (doubleArith sampleLibm))
      (.finite (2 ^ 1023)) = .nan := by
    apply equation_of_time_nan_of_cos
    have hPI : (sourceGlobals (doubleArith sampleLibm)).PI = .finite PI_double :=
      ofRat_PI_literal
    rw [hPI, mul_huge_PI, ofRat_180]
    rfl
  simp only [calculate_equation_of_time_impl, PyFloat_AsDouble, PyFloat_FromDouble, h]

/-- C6, amended: for every finite `gamma` of magnitude at most `2^1021`, over a
C library whose `cos` and `sin` stay within `[-1, 1]` on finite arguments, the
function returns a finite `float` and leaves the interpreter state as it
found it. -/
theorem impl_finite_of_abs_le (L : Libm) (hcos : ∀ a, |L.cos a| ≤ 1)
    (hsin : ∀ a, |L.sin a| ≤ 1) (g : ℚ) (hg : |g| ≤ 2 ^ 1021) (s : PyState) :
    ∃ r : ℚ, calculate_equation_of_time_impl (doubleArith L) doubleOfInt
        (sourceGlobals (doubleArith L)) (.pyFloat (.finite g)) s
      = (some (.pyFloat (.finite r)), s) := by
  have h := equation_of_time_absLe L hcos hsin g hg
  cases hv : equation_of_time (doubleArith L) (sourceGlobals (doubleArith L)) (.finite g) with
  | finite r =>
    exact ⟨r, by simp only [calculate_equation_of_time_impl, PyFloat_AsDouble,
      PyFloat_FromDouble, hv]⟩
  | inf t => rw [hv] at h; exact h.elim
  | nan => rw [hv] at h; exact h.elim

/-- C6, amended, at `gamma = 180` over the sample C library. -/
theorem impl_finite_of_abs_le_witness :
    |(180 : ℚ)| ≤ 2 ^ 1021
      ∧ ∃ r : ℚ, calculate_equation_of_time_impl (doubleArith sampleLibm) doubleOfInt
          (sourceGlobals (doubleArith sampleLibm)) (.pyFloat (.finite 180)) { err := none }
        = (some (.pyFloat (.finite r)), { err := none }) :=
  ⟨by norm_num [abs_le],
   impl_finite_of_abs_le sampleLibm sampleLibm_cos_le sampleLibm_sin_le 180
     (by norm_num [abs_le]) { err := none }⟩

/-- C7: on a `float` NaN, over any C library, the function returns the `float`
NaN and sets no exception: the interpreter state is as it was. -/
theorem impl_nan_in_nan_out (L : Libm) (s : PyState) :
    calculate_equation_of_time_impl (doubleArith L) doubleOfInt
        (sourceGlobals (doubleArith L)) (.pyFloat .nan) s
      = (some (.pyFloat .nan), s) := by
  have h : equation_of_time (doubleArith L) (sourceGlobals (doubleArith L)) .nan = .nan := by
    apply equation_of_time_nan_of_cos
    rw [Double.mul_nan_left, Double.div_nan_left]
    rfl
  simp only [calculate_equation_of_time_impl, PyFloat_AsDouble, PyFloat_FromDouble, h]

/-- C8: on a `float` argument the returned object depends on nothing but the
argument and the constant `PI`: it is the same from any two interpreter states
and for any two values of the unused constant `e`, and the interpreter state is
returned as it was found. -/
theorem impl_deterministic (α : Type) (A : Arith α) (toDouble : ℤ → Option α)
    (G : Globals α) (e' : α) (gamma : α) (s s' : PyState) :
    (calculate_equation_of_time_impl A toDouble G (.pyFloat gamma) s).1
        = (calculate_equation_of_time_impl A toDouble { e := e', PI := G.PI }
            (.pyFloat gamma) s').1
      ∧ (calculate_equation_of_time_impl A toDouble G (.pyFloat gamma) s).2 = s := by
  exact ⟨rfl, rfl⟩

/-- C9: the literal of the code and the literal of the specification both lie
strictly within half a unit in the last place (`2^-52`) of the binary64 number
`884279719003555 / 2^48 = 7074237752028440 * 2^-51`, both round to it, and the
function computes the same value with either. -/
theorem PI_literals_same_double (L : Libm) (e : Double) (gamma : Double) :
    (2 ^ 52 ≤ (7074237752028440 : ℚ) ∧ (7074237752028440 : ℚ) < 2 ^ 53
        ∧ PI_double = 7074237752028440 * 2 ^ (-51 : ℤ))
      ∧ |PI_literal - PI_double| < 2 ^ (-52 : ℤ)
      ∧ |PI_spec_literal - PI_double| < 2 ^ (-52 : ℤ)
      ∧ Double.ofRat PI_literal = .finite PI_double
      ∧ Double.ofRat PI_spec_literal = .finite PI_double
      ∧ equation_of_time (doubleArith L) { e := e, PI := (doubleArith L).lit PI_spec_literal } gamma
        = equation_of_time (doubleArith L) { e := e, PI := (doubleArith L).lit PI_literal } gamma := by
  refine ⟨⟨by norm_num, by norm_num, by rw [PI_double]; norm_num⟩, ?_, ?_,
    ofRat_PI_literal, ofRat_PI_spec_literal, ?_⟩
  · rw [PI_literal, PI_double]; norm_num [abs_lt]
  · rw [PI_spec_literal, PI_double]; norm_num [abs_lt]
  · have h : (doubleArith L).lit PI_spec_literal = (doubleArith L).lit PI_literal := by
      show Double.ofRat PI_spec_literal = Double.ofRat PI_literal
      rw [ofRat_PI_literal, ofRat_PI_spec_literal]
    rw [h]

/-- C10: over the reals, for every `gamma` (and whatever the value of the
constant `PI`), the magnitude of the value is at most
`2.2918 * (0.0075 + sqrt (0.1868^2 + 3.2077^2) + sqrt (1.4615^2 + 4.089^2))`,
which is below 17.34. -/
theorem eot_bounded (G : Globals ℝ) (γ : ℝ) :
    |equation_of_time realArith G γ|
        ≤ 2.2918 * (0.0075 + Real.sqrt (0.1868 ^ 2 + 3.2077 ^ 2)
            + Real.sqrt (1.4615 ^ 2 + 4.089 ^ 2))
      ∧ (2.2918 : ℝ) * (0.0075 + Real.sqrt (0.1868 ^ 2 + 3.2077 ^ 2)
            + Real.sqrt (1.4615 ^ 2 + 4.089 ^ 2)) < 17.34
      ∧ |equation_of_time realArith G γ| < 17.34
      ∧ |equation_of_time realArith realGlobals γ| < 17.34 := by
  have hb : ∀ H : Globals ℝ, |equation_of_time realArith H γ|
        ≤ 2.2918 * (0.0075 + Real.sqrt (0.1868 ^ 2 + 3.2077 ^ 2)
            + Real.sqrt (1.4615 ^ 2 + 4.089 ^ 2)) := by
    intro H
    rw [equation_of_time_realArith, abs_mul, abs_of_pos (by norm_num : (0 : ℝ) < 2.2918)]
    apply mul_le_mul_of_nonneg_left _ (by norm_num)
    have h1 := abs_harmonic_le 0.1868 (-3.2077) (γ * H.PI / 180)
    have h2 := abs_harmonic_le (-1.4615) (-4.089) (2 * γ * H.PI / 180)
    rw [neg_sq] at h1
    rw [neg_sq, neg_sq] at h2
    have h1' := abs_le.mp h1
    have h2' := abs_le.mp h2
    rw [abs_le]
    constructor <;> linarith [h1'.1, h1'.2, h2'.1, h2'.2]
  exact ⟨hb G, amplitude_lt, lt_of_le_of_lt (hb G) amplitude_lt,
    lt_of_le_of_lt (hb realGlobals) amplitude_lt⟩

end Solar2
